import Mathlib

/-!
Verification of the codebase indexing and retrieval subsystem of the
roo-engine server (`src/unnamed/part_000`): the chunker, chunk identifier,
indexer, retriever, context assembler and their orchestration, shallowly
embedded as executable Lean definitions. Texts are modelled as `List Char`
(a JS string is a sequence of code units), the filesystem as a finite tree,
the external embedding service and the MD5 hash as function parameters, and
the vector store as a list of points.
-/

/-! ## Configuration (`INDEXING_CONFIG`, lines 33-40 of the source) -/

structure IndexingConfig where
  qdrantUrl : String
  collectionName : String
  vectorSize : Nat
  maxFileSize : Nat
  maxChunkSize : Nat
  overlapSize : Nat
deriving DecidableEq

def INDEXING_CONFIG : IndexingConfig where
  qdrantUrl := ("http://localhost:6333")
  collectionName := ("roo-cli-codebase")
  vectorSize := 1536
  maxFileSize := 1024 * 1024
  maxChunkSize := 1000
  overlapSize := 200

/-! ## Chunker (`splitIntoChunks`, lines 135-149)

The source's `while` loop is embedded with explicit fuel so the definition
stays structurally recursive and kernel-evaluable; `none` means the loop was
still running when the fuel (text length + 1, enough for every
`overlapSize < maxChunkSize` run, as proved below) ran out. -/

/-- One iteration of the chunking while-loop at offset `s` over a text of
length `len`: `some s'` when the loop continues with the advanced offset
`s' = end - overlapSize`, `none` when the loop exits. -/
def chunkStep (len W o s : Nat) : Option Nat :=
  if s < len then
    let e := min (s + W) len
    if e = len then none else some (e - o)
  else none

/-- The body of `splitIntoChunks`: `start` is the current offset, `acc` the
chunks pushed so far (each chunk is `text.slice start end`). -/
def chunkLoop (text : List Char) (W o : Nat) : Nat → Nat → List (List Char) →
    Option (List (List Char))
  | 0, _, _ => none
  | fuel + 1, start, acc =>
    if start < text.length then
      let e := min (start + W) text.length
      let c := (text.drop start).take (e - start)
      if e = text.length then some (acc ++ [c])
      else chunkLoop text W o fuel (e - o) (acc ++ [c])
    else some acc

/-- `splitIntoChunks(text, maxChunkSize, overlapSize)` from the source. -/
def splitIntoChunks (text : List Char) (W o : Nat) : Option (List (List Char)) :=
  chunkLoop text W o (text.length + 1) 0 []

/-- The chunk-count formula as the spec states it: 0 for empty text, 1 for
`0 < len ≤ windowSize`, else `ceil((len - overlapSize) / (windowSize -
overlapSize))` (written with Nat ceiling division). -/
def specChunkCount (len W o : Nat) : Nat :=
  if len = 0 then 0
  else if len ≤ W then 1
  else (len - o + (W - o) - 1) / (W - o)

lemma specChunkCount_step (r W o : Nat) (ho : o < W) (hr : W < r) :
    specChunkCount r W o = 1 + specChunkCount (r - (W - o)) W o := by
  have hb : 0 < W - o := Nat.sub_pos_of_lt ho
  have hr0 : r ≠ 0 := by omega
  have hrW : ¬ r ≤ W := by omega
  have hr0' : ¬ r - (W - o) = 0 := by omega
  rcases le_or_lt (r - (W - o)) W with hle | hgt
  · -- the remainder fits in one more window: both sides are concrete
    have : specChunkCount (r - (W - o)) W o = 1 := by
      simp [specChunkCount, hr0', hle]
    rw [this, specChunkCount]
    simp only [hr0, hrW, if_false]
    have := Nat.div_eq_of_lt_le (by omega : 2 * (W - o) ≤ r - o + (W - o) - 1)
      (by omega : r - o + (W - o) - 1 < (2 + 1) * (W - o))
    omega
  · -- still more than one window left: peel one full step off the division
    rw [specChunkCount, specChunkCount]
    simp only [hr0, hrW, hr0', if_false, Nat.not_le.mpr hgt]
    have hnum : r - o + (W - o) - 1 = (r - (W - o) - o + (W - o) - 1) + (W - o) := by
      omega
    rw [hnum, Nat.add_div_right _ hb]
    omega

lemma chunkLoop_spec (text : List Char) (W o : Nat) (ho : o < W) :
    ∀ fuel s acc, s < text.length → text.length - s ≤ fuel →
      ∃ l, chunkLoop text W o fuel s acc = some (acc ++ l) ∧
        l.length = specChunkCount (text.length - s) W o := by
  intro fuel
  induction fuel with
  | zero => intro s acc hs hf; omega
  | succ fuel ih =>
    intro s acc hs hf
    rw [chunkLoop]
    simp only [hs, if_true]
    by_cases he : min (s + W) text.length = text.length
    · refine ⟨[(text.drop s).take (min (s + W) text.length - s)], by simp [he], ?_⟩
      have h1 : text.length - s ≤ W := by omega
      have h2 : ¬ text.length - s = 0 := by omega
      simp [specChunkCount, h1, h2]
    · have hlt : s + W < text.length := by omega
      have hmin : min (s + W) text.length = s + W := by omega
      rw [if_neg he]
      have hs' : s + W - o < text.length := by omega
      have hf' : text.length - (s + W - o) ≤ fuel := by omega
      obtain ⟨l, hl, hlen⟩ := ih (min (s + W) text.length - o)
        (acc ++ [(text.drop s).take (min (s + W) text.length - s)])
        (by omega) (by omega)
      refine ⟨(text.drop s).take (min (s + W) text.length - s) :: l, ?_, ?_⟩
      · rw [hl]; simp
      · have hWr : W < text.length - s := by omega
        rw [List.length_cons, specChunkCount_step (text.length - s) W o ho hWr]
        have : text.length - (min (s + W) text.length - o)
            = text.length - s - (W - o) := by omega
        rw [hlen, this]
        omega

/-! ## Chunk identifier (`generateChunkId`, lines 152-155)

The pre-hash string is `` `${filePath}:${startLine}:${content}` ``; the MD5
hash applied to it is an external library call, modelled as a function
parameter. The decimal rendering of the line number is embedded as a
fuel-structural function (`natChars`). -/

def digitChar (d : Nat) : Char := Char.ofNat (48 + d)

def natCharsAux : Nat → Nat → List Char
  | 0, _ => []
  | fuel + 1, n => if n = 0 then [] else natCharsAux fuel (n / 10) ++ [digitChar (n % 10)]

/-- The decimal rendering of a Nat, as JS template interpolation writes it. -/
def natChars (n : Nat) : List Char :=
  if n = 0 then ['0'] else natCharsAux (n + 1) n

/-- The string `generateChunkId` hashes: the three inputs joined by `:`. -/
def chunkKey (filePath : List Char) (startLine : Nat) (content : List Char) : List Char :=
  filePath ++ ':' :: (natChars startLine ++ ':' :: content)

/-- `generateChunkId(filePath, startLine, content)`: MD5 (a parameter here)
of the joined key. -/
def generateChunkId (md5 : List Char → List Char) (filePath : List Char)
    (startLine : Nat) (content : List Char) : List Char :=
  md5 (chunkKey filePath startLine content)

lemma digitChar_ne_colon : ∀ d, d < 10 → digitChar d ≠ ':' := by decide

lemma digitChar_toNat : ∀ d, d < 10 → (digitChar d).toNat = 48 + d := by decide

/-- Decimal decoding, a left inverse of `natChars` used to prove the line
number's rendering injective. -/
def decodeDigits (l : List Char) : Nat :=
  l.foldl (fun acc c => acc * 10 + (c.toNat - 48)) 0

lemma decodeDigits_natCharsAux : ∀ fuel n, n ≤ fuel →
    decodeDigits (natCharsAux fuel n) = n := by
  intro fuel
  induction fuel with
  | zero => intro n hn; interval_cases n; rfl
  | succ fuel ih =>
    intro n hn
    by_cases h0 : n = 0
    · subst h0; rfl
    · rw [natCharsAux, if_neg h0]
      have h10 : n / 10 ≤ fuel := by
        have := Nat.div_lt_self (Nat.pos_of_ne_zero h0) (by omega : 1 < 10)
        omega
      unfold decodeDigits
      rw [List.foldl_append]
      have hd : (digitChar (n % 10)).toNat = 48 + n % 10 :=
        digitChar_toNat _ (Nat.mod_lt _ (by omega))
      simp only [List.foldl_cons, List.foldl_nil, hd]
      have := ih (n / 10) h10
      unfold decodeDigits at this
      rw [this]
      omega

lemma decodeDigits_natChars (n : Nat) : decodeDigits (natChars n) = n := by
  unfold natChars
  by_cases h0 : n = 0
  · subst h0; rfl
  · rw [if_neg h0]; exact decodeDigits_natCharsAux (n + 1) n (by omega)

lemma natChars_inj {m n : Nat} (h : natChars m = natChars n) : m = n := by
  have := decodeDigits_natChars m
  rw [h, decodeDigits_natChars] at this
  omega

lemma natCharsAux_digits : ∀ fuel n c, c ∈ natCharsAux fuel n →
    ∃ d, d < 10 ∧ c = digitChar d := by
  intro fuel
  induction fuel with
  | zero => intro n c hc; simp [natCharsAux] at hc
  | succ fuel ih =>
    intro n c hc
    rw [natCharsAux] at hc
    by_cases h0 : n = 0
    · simp [h0] at hc
    · rw [if_neg h0, List.mem_append] at hc
      rcases hc with hc | hc
      · exact ih _ _ hc
      · simp only [List.mem_singleton] at hc
        exact ⟨n % 10, Nat.mod_lt _ (by omega), hc⟩

lemma colon_not_mem_natChars (n : Nat) : ':' ∉ natChars n := by
  intro hc
  unfold natChars at hc
  by_cases h0 : n = 0
  · rw [if_pos h0] at hc
    simp only [List.mem_singleton] at hc
    exact absurd hc.symm (digitChar_ne_colon 0 (by omega))
  · rw [if_neg h0] at hc
    obtain ⟨d, hd, hcd⟩ := natCharsAux_digits _ _ _ hc
    exact digitChar_ne_colon d hd hcd.symm

lemma colon_split : ∀ (a₁ a₂ r₁ r₂ : List Char), ':' ∉ a₁ → ':' ∉ a₂ →
    a₁ ++ ':' :: r₁ = a₂ ++ ':' :: r₂ → a₁ = a₂ ∧ r₁ = r₂ := by
  intro a₁
  induction a₁ with
  | nil =>
    intro a₂ r₁ r₂ _ h2 h
    cases a₂ with
    | nil => simpa using h
    | cons b bs =>
      simp only [List.nil_append, List.cons_append, List.cons.injEq] at h
      exact absurd (by simp [← h.1] : ':' ∈ b :: bs) h2
  | cons a as ih =>
    intro a₂ r₁ r₂ h1 h2 h
    cases a₂ with
    | nil =>
      simp only [List.cons_append, List.nil_append, List.cons.injEq] at h
      exact absurd (by simp [h.1] : ':' ∈ a :: as) h1
    | cons b bs =>
      simp only [List.cons_append, List.cons.injEq] at h
      obtain ⟨hab, ht⟩ := h
      have := ih bs r₁ r₂ (fun hm => h1 (List.mem_cons_of_mem _ hm))
        (fun hm => h2 (List.mem_cons_of_mem _ hm)) ht
      exact ⟨by rw [hab, this.1], this.2⟩

/-! ## Server state and the single-flight lock (`indexCodebase`, lines 241-305)

`isIndexing` and `indexedCodebases` are the process-wide globals (lines
43-46). `indexCodebase` is split at its `await` boundary into the
synchronous entry (the two guards plus setting the busy flag, lines
242-251) and the settling epilogue (registration on success, and the
`finally` clearing the flag, lines 293-304). A falsy JS `codebasePath` is
modelled as the empty string. -/

structure ServerState where
  isIndexing : Bool
  indexedCodebases : List String
deriving DecidableEq

inductive IndexErr where
  | alreadyIndexing
  | pathRequired
deriving DecidableEq

/-- JS `Set.add`: append if absent. -/
def setAdd (s : List String) (p : String) : List String :=
  if p ∈ s then s else s ++ [p]

/-- JS `Set.delete`. -/
def setDelete (s : List String) (p : String) : List String :=
  s.filter (fun q => q ≠ p)

/-- The synchronous prefix of `indexCodebase`: reject when busy, reject a
falsy path, otherwise raise the busy flag and start the run. -/
def indexCodebaseBegin (s : ServerState) (codebasePath : String) :
    Except IndexErr ServerState :=
  if s.isIndexing then .error .alreadyIndexing
  else if codebasePath = ("") then .error .pathRequired
  else .ok { s with isIndexing := true }

/-- The settling of `indexCodebase`: on success the root is added to the
indexed set (line 294); in every case the `finally` clears the busy flag
(line 303). -/
def indexCodebaseEnd (s : ServerState) (codebasePath : String) (succeeded : Bool) :
    ServerState :=
  let s' := if succeeded
    then { s with indexedCodebases := setAdd s.indexedCodebases codebasePath }
    else s
  { s' with isIndexing := false }

/-- The `DELETE /index/:codebasePath` route (lines 924-957): drop the root's
points from the collection and remove it from the indexed set. -/
def clearIndexRoute (indexed : List String) (p : String) : List String :=
  setDelete indexed p

/-! ## Filesystem model and file walker (`getAllFiles`, lines 214-238,
named `walkFiles` here because Mathlib already declares `getAllFiles`)

A directory tree is finite; reads that fail (`readdir`/`readFile` throwing)
are modelled by an unreadable-directory flag and by `none` file content. The
walker and the code-file sampler recurse on an explicit depth fuel so they
stay kernel-evaluable; any fuel at least the tree's depth is exact. -/

inductive FSTree where
  | file (size : Nat) (content : Option String)
  | dir (readable : Bool) (entries : List (String × FSTree))

/-- A file the walker returned: its absolute path plus the `stat` size and
the content a later `readFile` would yield (`none` = the read fails). -/
structure WalkedFile where
  path : String
  size : Nat
  content : Option String
deriving DecidableEq

def CODE_EXTENSIONS : List String :=
  [(".js"), (".ts"), (".jsx"), (".tsx"), (".py"), (".java"), (".cpp"), (".c"),
   (".cs"), (".php"), (".rb"), (".go"), (".rs"), (".swift"), (".kt"),
   (".scala"), (".html"), (".css"), (".scss"), (".json"), (".yaml"), (".yml"),
   (".toml"), (".md"), (".txt"), (".sh"), (".bash"), (".zsh")]

/-- The walker's skip test (line 220): hidden entries, `node_modules`, `.git`. -/
def skipEntryName (name : String) : Bool :=
  name.startsWith (".") || name == ("node_modules") || name == (".git")

def walkFiles : Nat → String → FSTree → List WalkedFile
  | 0, _, _ => []
  | _ + 1, _, .file _ _ => []
  | _ + 1, _, .dir false _ => []
  | fuel + 1, base, .dir true entries =>
    entries.foldl (fun acc nc =>
      if skipEntryName nc.1 then acc
      else
        match nc.2 with
        | .dir r es => acc ++ walkFiles fuel (base ++ ("/") ++ nc.1) (.dir r es)
        | .file sz c => acc ++ [⟨base ++ ("/") ++ nc.1, sz, c⟩]) []

/-! ## Path helpers (`path.extname`, `path.relative`, `getFileExtension`) -/

def basenameChars (l : List Char) : List Char :=
  (l.reverse.takeWhile (fun c => c != '/')).reverse

def lastIdxOf (c : Char) : List Char → Option Nat
  | [] => none
  | a :: rest =>
    match lastIdxOf c rest with
    | some i => some (i + 1)
    | none => if a == c then some 0 else none

/-- `path.extname`: the basename's suffix from its last dot, empty when there
is no dot or the only dot leads the basename. -/
def extname (p : String) : String :=
  let base := basenameChars p.toList
  match lastIdxOf '.' base with
  | none => ("")
  | some 0 => ("")
  | some i => String.mk (base.drop i)

/-- `path.relative(root, p)` for the paths this model builds: strip the
`root/` prefix. -/
def pathRelative (root p : String) : String :=
  if (root ++ ("/")).isPrefixOf p then p.drop (root.length + 1) else p

/-- The `extMap` of `getFileExtension` (lines 413-446). -/
def extMap : List (String × String) :=
  [((".js"), ("javascript")), ((".ts"), ("typescript")), ((".jsx"), ("javascript")),
   ((".tsx"), ("typescript")), ((".py"), ("python")), ((".java"), ("java")),
   ((".cpp"), ("cpp")), ((".c"), ("c")), ((".cs"), ("csharp")), ((".php"), ("php")),
   ((".rb"), ("ruby")), ((".go"), ("go")), ((".rs"), ("rust")),
   ((".swift"), ("swift")), ((".kt"), ("kotlin")), ((".scala"), ("scala")),
   ((".html"), ("html")), ((".css"), ("css")), ((".scss"), ("scss")),
   ((".json"), ("json")), ((".yaml"), ("yaml")), ((".yml"), ("yaml")),
   ((".toml"), ("toml")), ((".md"), ("markdown")), ((".txt"), ("text")),
   ((".sh"), ("bash")), ((".bash"), ("bash")), ((".zsh"), ("bash"))]

def getFileExtension (filePath : String) : String :=
  match extMap.lookup (extname filePath) with
  | some lang => lang
  | none => ("text")

/-- JS `Array.join(sep)`. -/
def joinWith (sep : String) : List String → String
  | [] => ("")
  | [x] => x
  | x :: rest => x ++ sep ++ joinWith sep rest

/-- Substring test used by `getCodeFiles` (`file.includes(...)`). -/
def startsWithChars : List Char → List Char → Bool
  | [], _ => true
  | _ :: _, [] => false
  | a :: as, b :: bs => a == b && startsWithChars as bs

def containsChars (pat : List Char) : List Char → Bool
  | [] => startsWithChars pat []
  | b :: rest => startsWithChars pat (b :: rest) || containsChars pat rest

def strContainsSub (s sub : String) : Bool :=
  containsChars sub.toList s.toList

/-! ## Context Assembler (lines 356-541) -/

def importantFiles : List String :=
  [("package.json"), ("README.md"), ("requirements.txt"), ("Cargo.toml"),
   ("go.mod"), ("pom.xml"), ("build.gradle"), ("Gemfile"), ("composer.json"),
   ("pyproject.toml")]

def keyFileBlock (name c : String) : String :=
  ("### ") ++ name ++ (":\n```\n") ++ c.take 1000 ++
    (if c.length > 1000 then ("\n...") else ("")) ++ ("\n```")

/-- `getKeyFiles(rootPath)` (lines 356-381): the manifest files readable at
the root; an absent or unreadable root yields the empty list. -/
def getKeyFiles : Option FSTree → List String
  | some (.dir true entries) =>
    entries.foldl (fun acc nc =>
      if importantFiles.contains nc.1 then
        match nc.2 with
        | .file _ (some c) => acc ++ [keyFileBlock nc.1 c]
        | _ => acc
      else acc) []
  | _ => []

def codeFileBlock (relPath fullPath c : String) : String :=
  ("### ") ++ relPath ++ (":\n```") ++ getFileExtension fullPath ++ ("\n") ++
    c.take 2000 ++ (if c.length > 2000 then ("\n...") else ("")) ++ ("\n```")

/-- `getCodeFiles(rootPath, maxFiles)` (lines 384-410). -/
def getCodeFiles (fuel : Nat) (rootPath : String) (root : Option FSTree)
    (maxFiles : Nat) : List String :=
  match root with
  | none => []
  | some t =>
    let allFiles := walkFiles fuel rootPath t
    let relevantGroup := (allFiles.filter (fun f =>
      CODE_EXTENSIONS.contains (extname f.path)
        && !(strContainsSub f.path ("node_modules"))
        && !(strContainsSub f.path (".git")))).take maxFiles
    relevantGroup.foldl (fun acc f =>
      match f.content with
      | some c => acc ++ [codeFileBlock (pathRelative rootPath f.path) f.path c]
      | none => acc) []

def indentSpaces : Nat → String
  | 0 => ("")
  | n + 1 => ("  ") ++ indentSpaces n

/-- `getDirectoryStructure` (lines 510-541): `d` is `currentDepth`, `gas`
counts the depths still allowed (`maxDepth + 1 - currentDepth`); readdir of
a file or unreadable directory throws, caught as the empty string. -/
def getDirectoryStructureAux (d : Nat) : Nat → FSTree → String
  | 0, _ => ("")
  | _ + 1, .file _ _ => ("")
  | _ + 1, .dir false _ => ("")
  | gas + 1, .dir true entries =>
    let lines := (entries.take 20).foldl (fun acc nc =>
      match nc.2 with
      | .dir r es =>
        if !(nc.1.startsWith (".")) && !(nc.1.startsWith ("node_modules")) then
          let sub := getDirectoryStructureAux (d + 1) gas (.dir r es)
          let acc := acc ++ [indentSpaces d ++ ("📁 ") ++ nc.1 ++ ("/")]
          if sub != ("") then acc ++ [sub] else acc
        else acc
      | .file _ _ =>
        if CODE_EXTENSIONS.contains (extname nc.1) || nc.1 == ("package.json")
            || nc.1 == ("README.md") then
          acc ++ [indentSpaces d ++ ("📄 ") ++ nc.1]
        else acc) []
    joinWith ("\n") lines

def getDirectoryStructure (t : FSTree) : String :=
  getDirectoryStructureAux 0 4 t

/-- `getCodebaseContext(codebasePath)` (lines 449-476): a falsy path yields
the empty string; otherwise the directory-structure header is always pushed
and the key-file and code-file sections only when non-empty. -/
def getCodebaseContext (codebasePath : Option String) (fuel : Nat)
    (root : Option FSTree) : String :=
  match codebasePath with
  | none => ("")
  | some p =>
    if p = ("") then ("")
    else
      let structureStr := match root with
        | some t => getDirectoryStructure t
        | none => ("")
      let ctx1 := [("## Directory Structure:\n") ++ structureStr ++ ("\n")]
      let keyFiles := getKeyFiles root
      let ctx2 := if keyFiles.length > 0
        then ctx1 ++ [("## Key Files:\n") ++ joinWith ("\n\n") keyFiles ++ ("\n")]
        else ctx1
      let codeFiles := getCodeFiles fuel p root 10
      let ctx3 := if codeFiles.length > 0
        then ctx2 ++ [("## Code Files:\n") ++ joinWith ("\n\n") codeFiles ++ ("\n")]
        else ctx2
      joinWith ("\n") ctx3

/-! ## Vector store and retriever (`searchCodebase`, lines 308-353)

The Qdrant collection is a list of points; cosine similarity against the
query embedding is an external computation, passed as a scoring function.
The store's search filters by the optional `codebasePath` equality filter,
admits only scores at or above the threshold, ranks best-first and returns
at most `limit` points. -/

structure ChunkPayload where
  filePath : String
  codeChunk : List Char
  startLine : Nat
  endLine : Nat
  codebasePath : String
  timestamp : String
deriving DecidableEq

structure QdrantPoint where
  id : List Char
  vector : List Rat
  payload : ChunkPayload
deriving DecidableEq

structure SearchHit where
  score : Rat
  filePath : String
  codeChunk : List Char
  startLine : Nat
  endLine : Nat
  codebasePath : String
deriving DecidableEq

def insertRanked (x : QdrantPoint × Rat) :
    List (QdrantPoint × Rat) → List (QdrantPoint × Rat)
  | [] => [x]
  | y :: rest => if y.2 ≤ x.2 then x :: y :: rest else y :: insertRanked x rest

def rankByScore (l : List (QdrantPoint × Rat)) : List (QdrantPoint × Rat) :=
  l.foldr insertRanked []

def qdrantSearch (points : List QdrantPoint) (score : QdrantPoint → Rat)
    (filter : Option String) (limit : Nat) (threshold : Rat) :
    List (QdrantPoint × Rat) :=
  let filtered : List QdrantPoint := match filter with
    | some v => points.filter (fun pt => pt.payload.codebasePath == v)
    | none => points
  let admitted := filtered.filter (fun pt => decide (threshold ≤ score pt))
  (rankByScore (admitted.map (fun pt => (pt, score pt)))).take limit

/-- The filter construction of `searchCodebase` (lines 319-329): an equality
filter on the payload field `codebasePath` when the argument is truthy,
otherwise no filter. -/
def buildSearchFilter (codebasePath : Option String) : Option String :=
  match codebasePath with
  | some p => if p = ("") then none else some p
  | none => none

/-- `searchCodebase(query, codebasePath, limit)`: the query embedding enters
only through the scoring function; `score_threshold` is 0.7. -/
def searchCodebase (points : List QdrantPoint) (score : QdrantPoint → Rat)
    (codebasePath : Option String) (limit : Nat) : List SearchHit :=
  let filter := buildSearchFilter codebasePath
  (qdrantSearch points score filter limit ((7 : Rat) / 10)).map (fun pr =>
    { score := pr.2, filePath := pr.1.payload.filePath,
      codeChunk := pr.1.payload.codeChunk, startLine := pr.1.payload.startLine,
      endLine := pr.1.payload.endLine, codebasePath := pr.1.payload.codebasePath })

/-! ## Indexer (`indexFile`, lines 158-212, and `indexCodebase`, lines 241-305)

`fails i = true` means chunk `i`'s embedding or upsert call throws. The
source's `try` wraps the whole per-file loop, so the model returns the pair
(value `indexFile` returns, points actually upserted before returning). -/

def mkChunkPoint (cfg : IndexingConfig) (md5 : List Char → List Char)
    (embed : List Char → List Rat) (relPath codebasePath timestamp : String)
    (i : Nat) (chunk : List Char) : QdrantPoint :=
  let startLine := i * (cfg.maxChunkSize - cfg.overlapSize) / 50 + 1
  let endLine := startLine + chunk.length / 50
  let payload : ChunkPayload :=
    { filePath := relPath, codeChunk := chunk, startLine := startLine,
      endLine := endLine, codebasePath := codebasePath, timestamp := timestamp }
  { id := generateChunkId md5 relPath.toList startLine chunk,
    vector := embed chunk, payload := payload }

def indexFileLoop (cfg : IndexingConfig) (md5 : List Char → List Char)
    (embed : List Char → List Rat) (fails : Nat → Bool)
    (relPath codebasePath timestamp : String) :
    List (List Char) → Nat → List QdrantPoint → Nat × List QdrantPoint
  | [], i, acc => (i, acc)
  | chunk :: rest, i, acc =>
    if fails i then (0, acc)
    else indexFileLoop cfg md5 embed fails relPath codebasePath timestamp rest
      (i + 1)
      (acc ++ [mkChunkPoint cfg md5 embed relPath codebasePath timestamp i chunk])

/-- `indexFile(filePath, codebasePath)`: skip files over the size cap with 0
chunks; a failed read or a thrown chunk operation is caught at the function
level and also returns 0. -/
def indexFile (cfg : IndexingConfig) (md5 : List Char → List Char)
    (embed : List Char → List Rat) (fails : Nat → Bool)
    (codebasePath timestamp : String) (f : WalkedFile) : Nat × List QdrantPoint :=
  if cfg.maxFileSize < f.size then (0, [])
  else match f.content with
    | none => (0, [])
    | some content =>
      let relPath := pathRelative codebasePath f.path
      let chunks :=
        (splitIntoChunks content.toList cfg.maxChunkSize cfg.overlapSize).getD []
      indexFileLoop cfg md5 embed fails relPath codebasePath timestamp chunks 0 []

def indexBatchSize : Nat := 10

def toBatchesAux {α : Type} (bs : Nat) : Nat → List α → List (List α)
  | 0, l => if l.isEmpty then [] else [l]
  | fuel + 1, l =>
    if l.isEmpty then [] else l.take bs :: toBatchesAux bs fuel (l.drop bs)

/-- The batch slicing of `indexCodebase` (lines 272-274). -/
def toBatches {α : Type} (bs : Nat) (l : List α) : List (List α) :=
  toBatchesAux bs l.length l

/-- One batch of the indexing loop (lines 276-291): per file, add the file's
returned chunk count to `totalChunks` and bump `processedFiles`. -/
def processBatch (cfg : IndexingConfig) (md5 : List Char → List Char)
    (embed : List Char → List Rat) (fails : String → Nat → Bool)
    (codebasePath timestamp : String) (batch : List WalkedFile)
    (acc : Nat × Nat) : Nat × Nat :=
  batch.foldl (fun a f =>
    (a.1 + (indexFile cfg md5 embed (fails f.path) codebasePath timestamp f).1,
     a.2 + 1)) acc

/-- The body of `indexCodebase(codebasePath)` between the guards and the
registration: walk, retain the allow-listed extensions, process in batches
of ten, and return `(totalChunks, processedFiles)`. -/
def indexCodebaseRun (cfg : IndexingConfig) (md5 : List Char → List Char)
    (embed : List Char → List Rat) (fails : String → Nat → Bool)
    (timestamp codebasePath : String) (fuel : Nat) (fs : FSTree) : Nat × Nat :=
  let allFiles := walkFiles fuel codebasePath fs
  let codeFiles := allFiles.filter (fun f => CODE_EXTENSIONS.contains (extname f.path))
  (toBatches indexBatchSize codeFiles).foldl
    (fun acc batch =>
      processBatch cfg md5 embed fails codebasePath timestamp batch acc) (0, 0)

/-! ## Retrieval orchestration (`getIndexedCodebaseContext`, lines 479-507,
and the context phase of `sendMessage`, lines 689-729)

The effectful call to `searchCodebase` (which may throw before or during
the search) is modelled by its outcome, an `Except`. -/

def truthy : Option String → Bool
  | none => false
  | some s => s != ("")

/-- JS `a || b` on the two candidate codebase paths. -/
def jsOrPath (a b : Option String) : Option String :=
  if truthy a then a else b

def formatSearchHitBlock (r : SearchHit) : String :=
  ("### ") ++ r.filePath ++ (" (lines ") ++ toString r.startLine ++ ("-") ++
    toString r.endLine ++ (", score: ") ++ toString r.score ++ ("):\n```") ++
    getFileExtension r.filePath ++ ("\n") ++ String.mk r.codeChunk ++ ("\n```\n")

/-- `getIndexedCodebaseContext(query, codebasePath)`: empty for a falsy or
unindexed path; the whole body is wrapped in a `try` whose `catch` returns
the empty string, so a search error also yields the empty string. -/
def getIndexedCodebaseContext (indexed : List String)
    (searchOutcome : Except String (List SearchHit))
    (codebasePath : Option String) : String :=
  match codebasePath with
  | none => ("")
  | some p =>
    if p = ("") then ("")
    else if !(indexed.contains p) then ("")
    else match searchOutcome with
      | .error _ => ("")
      | .ok searchResults =>
        if searchResults.length = 0 then ("")
        else
          joinWith ("\n")
            ([("## Relevant Code (from indexed search):\n")] ++
              searchResults.map formatSearchHitBlock)

/-- The `try`/`catch` of `searchCodebase` logs and rethrows: the outcome is
passed through unchanged, a hard failure for the direct search interface. -/
def searchCodebaseOutcome (outcome : Except String (List SearchHit)) :
    Except String (List SearchHit) :=
  match outcome with
  | .error e => .error e
  | .ok r => .ok r

/-- The context phase of `sendMessage` (lines 692-702): indexed retrieval
when requested and a root is known, with unconditional fallback to the
Context Assembler whenever it produced nothing. -/
def sendMessageContext (useIndexedSearch : Bool) (codebasePath configPath : Option String)
    (indexed : List String) (searchOutcome : Except String (List SearchHit))
    (fuel : Nat) (fsRoot : Option FSTree) : String :=
  let root := jsOrPath codebasePath configPath
  let indexedContext :=
    if useIndexedSearch && truthy root
      then getIndexedCodebaseContext indexed searchOutcome root
      else ("")
  if indexedContext = ("") then getCodebaseContext root fuel fsRoot
  else indexedContext

/-! ## The indexed-set lifecycle as an event trace (for the membership
invariant): each event is one settled `indexCodebase` run or one
`DELETE /index/:codebasePath` request, applied to the indexed set through
the definitions above. -/

inductive ServerEvent where
  | indexRun (path : String) (succeeded : Bool)
  | clearIndex (path : String)
deriving DecidableEq

def applyEvent (s : List String) : ServerEvent → List String
  | .indexRun p ok =>
    (indexCodebaseEnd { isIndexing := true, indexedCodebases := s } p ok).indexedCodebases
  | .clearIndex p => clearIndexRoute s p

def runEvents (es : List ServerEvent) : List String :=
  es.foldl applyEvent []

/-- The premise of the unreadable-root scenario: the root path is absent, a
non-directory, or a directory whose every read fails. -/
def rootUnreadable : Option FSTree → Prop
  | none => True
  | some (.file _ _) => True
  | some (.dir false _) => True
  | some (.dir true _) => False

/-- A stored point of codebase root `A`, input of concrete search runs. -/
def samplePointA : QdrantPoint where
  id := []
  vector := []
  payload :=
    { filePath := ("a.js"), codeChunk := [], startLine := 1, endLine := 1,
      codebasePath := ("A"), timestamp := ("t") }

/-! # Theorems -/

lemma splitIntoChunks_total (text : List Char) (W o : Nat) (ho : o < W) :
    ∃ cs, splitIntoChunks text W o = some cs ∧
      cs.length = specChunkCount text.length W o := by
  by_cases h0 : text.length = 0
  · refine ⟨[], ?_, by simp [specChunkCount, h0]⟩
    unfold splitIntoChunks
    rw [h0]
    rw [chunkLoop]
    simp [h0]
  · obtain ⟨l, hl, hlen⟩ := chunkLoop_spec text W o ho (text.length + 1) 0 []
      (by omega) (by omega)
    exact ⟨l, by simpa using hl, by simpa using hlen⟩

/-- C1: for every text and every configuration with `overlapSize <
windowSize`, `splitIntoChunks` (run as the source's while-loop) terminates
and produces exactly `specChunkCount` chunks: 0 for empty text, 1 for
`0 < len ≤ windowSize`, and `ceil((len − overlapSize) / (windowSize −
overlapSize))` for `len > windowSize`. -/
theorem splitIntoChunks_chunk_count (text : List Char) (W o : Nat) (ho : o < W) :
    ∃ cs, splitIntoChunks text W o = some cs ∧
      cs.length = specChunkCount text.length W o :=
  splitIntoChunks_total text W o ho

/-- Witness for C1: the text `abcde` with window 2 and overlap 1 yields
`ceil((5-1)/(2-1)) = 4` chunks. -/
theorem splitIntoChunks_chunk_count_witness :
    (∃ cs, splitIntoChunks (("abcde").toList) 2 1 = some cs ∧
      cs.length = specChunkCount (("abcde").toList).length 2 1) ∧
    specChunkCount (("abcde").toList).length 2 1 = 4 :=
  ⟨splitIntoChunks_chunk_count (("abcde").toList) 2 1 (by decide), by decide⟩

/-- Counterexample for C8: no configuration validation exists in the code.
With the degenerate configuration `windowSize = overlapSize = 1` the chunking
loop runs and never advances: on the two-character text `ab` the loop step at
offset 0 re-enters at offset 0 (`chunkStep … = some 0`), and the fuel-bounded
loop model exhausts any fuel (`splitIntoChunks … = none`) instead of the
configuration being rejected before chunking. -/
theorem splitIntoChunks_degenerate_counterexample :
    splitIntoChunks (("ab").toList) 1 1 = none ∧
    chunkStep (("ab").toList).length 1 1 0 = some 0 := by
  exact ⟨by decide, by decide⟩

/-- C8 (amended): the chunking loop terminates whenever `overlapSize <
windowSize` — each iteration strictly advances the start offset. The code
performs no configuration validation at all; the degenerate case cannot
arise from the shipped constants because `INDEXING_CONFIG` fixes
`overlapSize = 200 < 1000 = maxChunkSize`. -/
theorem splitIntoChunks_terminates_of_overlap_lt_window :
    (∀ (text : List Char) (W o : Nat), o < W →
      ∃ cs, splitIntoChunks text W o = some cs) ∧
    INDEXING_CONFIG.overlapSize < INDEXING_CONFIG.maxChunkSize := by
  constructor
  · intro text W o ho
    obtain ⟨cs, hcs, -⟩ := splitIntoChunks_total text W o ho
    exact ⟨cs, hcs⟩
  · decide

/-- Counterexample for C6: the separator `:` can itself appear in the file
path (or the chunk text), so the pre-hash encoding is not injective: the
distinct triples `("a:1", 2, "c")` and `("a", 1, "2:c")` produce the same
pre-hash string `a:1:2:c`, and hence the same chunk id for every hash
function (shown for the identity). -/
theorem generateChunkId_collision_counterexample :
    chunkKey (("a:1").toList) 2 (("c").toList)
        = chunkKey (("a").toList) 1 (("2:c").toList) ∧
    generateChunkId (fun l => l) (("a:1").toList) 2 (("c").toList)
        = generateChunkId (fun l => l) (("a").toList) 1 (("2:c").toList) ∧
    ¬ ((("a:1").toList) = (("a").toList) ∧ 2 = 1 ∧
        (("c").toList) = (("2:c").toList)) := by
  exact ⟨by decide, by decide, by decide⟩

/-- C6 (amended): the pre-hash encoding of `generateChunkId` is injective
only on triples whose file path contains no `:` — the decimal line number
never contains `:`, so the first and second separators are then unambiguous;
with a `:` in the path (or, symmetrically, in the text) distinct triples can
collide before hashing. -/
theorem chunkKey_injective_of_no_colon (p₁ p₂ c₁ c₂ : List Char) (l₁ l₂ : Nat)
    (h₁ : ':' ∉ p₁) (h₂ : ':' ∉ p₂)
    (h : chunkKey p₁ l₁ c₁ = chunkKey p₂ l₂ c₂) :
    p₁ = p₂ ∧ l₁ = l₂ ∧ c₁ = c₂ := by
  unfold chunkKey at h
  obtain ⟨hp, h'⟩ := colon_split p₁ p₂ _ _ h₁ h₂ h
  obtain ⟨hl, hc⟩ := colon_split _ _ _ _ (colon_not_mem_natChars l₁)
    (colon_not_mem_natChars l₂) h'
  exact ⟨hp, natChars_inj hl, hc⟩

/-- Witness for C6: applying the injectivity theorem at the colon-free triple
`("src/a.js", 17, "x")` recovers the equal components. -/
theorem chunkKey_injective_of_no_colon_witness :
    (("src/a.js").toList) = (("src/a.js").toList) ∧ 17 = 17 ∧
      (("x").toList) = (("x").toList) :=
  chunkKey_injective_of_no_colon (("src/a.js").toList) (("src/a.js").toList)
    (("x").toList) (("x").toList) 17 17 (by decide) (by decide) rfl

/-- C2: while a run is in flight (the busy flag raised by an accepted
`indexCodebase` entry), a second call for any root fails with the
already-indexing error; and after the run settles — success or thrown error
alike — the `finally` has cleared the busy flag, so a subsequent call with a
valid root is accepted. -/
theorem indexCodebase_single_flight (s s₁ : ServerState) (p₁ p₂ p₃ : String)
    (b : Bool) (h₁ : indexCodebaseBegin s p₁ = .ok s₁) (h₃ : p₃ ≠ ("")) :
    indexCodebaseBegin s₁ p₂ = .error .alreadyIndexing ∧
    (indexCodebaseEnd s₁ p₁ b).isIndexing = false ∧
    ∃ s₃, indexCodebaseBegin (indexCodebaseEnd s₁ p₁ b) p₃ = .ok s₃ := by
  unfold indexCodebaseBegin at h₁
  by_cases hbusy : s.isIndexing
  · simp [hbusy] at h₁
  · by_cases hp : p₁ = ("")
    · simp [hbusy, hp] at h₁
    · simp only [hbusy, hp, if_neg, if_false, Bool.false_eq_true] at h₁
      cases h₁
      refine ⟨by simp [indexCodebaseBegin], ?_, ?_⟩
      · cases b <;> simp [indexCodebaseEnd]
      · cases b <;> simp [indexCodebaseBegin, indexCodebaseEnd, h₃]

/-- Witness for C2: from the idle state, the run for `/a` is accepted; while
it is in flight a call for `/b` is rejected; after it settles the flag is
down and a call for `/c` is accepted. -/
theorem indexCodebase_single_flight_witness :
    indexCodebaseBegin { isIndexing := true, indexedCodebases := [] } ("/b")
        = .error .alreadyIndexing ∧
    (indexCodebaseEnd { isIndexing := true, indexedCodebases := [] } ("/a")
        true).isIndexing = false ∧
    ∃ s₃, indexCodebaseBegin
      (indexCodebaseEnd { isIndexing := true, indexedCodebases := [] } ("/a") true)
      ("/c") = .ok s₃ :=
  indexCodebase_single_flight { isIndexing := false, indexedCodebases := [] }
    { isIndexing := true, indexedCodebases := [] } ("/a") ("/b") ("/c") true
    rfl (by decide)

lemma mem_setAdd {s : List String} {p q : String} :
    q ∈ setAdd s p ↔ q = p ∨ q ∈ s := by
  by_cases h : p ∈ s
  · simp only [setAdd, if_pos h]
    constructor
    · exact Or.inr
    · rintro (rfl | hq)
      · exact h
      · exact hq
  · simp [setAdd, if_neg h, List.mem_append, or_comm]

lemma mem_setDelete {s : List String} {p q : String} :
    q ∈ setDelete s p ↔ q ∈ s ∧ q ≠ p := by
  simp [setDelete, List.mem_filter]

lemma concat_eq_concat_split {α : Type} {l₁ l₂ : List α} {a b : α}
    (h : l₁ ++ [a] = l₂ ++ [b]) : l₁ = l₂ ∧ a = b := by
  have := List.append_inj' h rfl
  exact ⟨this.1, by simpa using this.2⟩

lemma snoc_eq_middle_split {α : Type} {es pre post : List α} {e m : α}
    (h : es ++ [e] = pre ++ m :: post) :
    (post = [] ∧ pre = es ∧ m = e) ∨
    ∃ post', post = post' ++ [e] ∧ es = pre ++ m :: post' := by
  rcases List.eq_nil_or_concat post with rfl | ⟨post', q, rfl⟩
  · obtain ⟨h1, h2⟩ := concat_eq_concat_split h
    exact Or.inl ⟨rfl, h1.symm, h2.symm⟩
  · rw [List.concat_eq_append] at h ⊢
    rw [show pre ++ m :: (post' ++ [q]) = (pre ++ m :: post') ++ [q] by simp] at h
    obtain ⟨h1, h2⟩ := concat_eq_concat_split h
    exact Or.inr ⟨post', by rw [h2], h1⟩

lemma marked_snoc (p : String) (es : List ServerEvent) (e : ServerEvent) :
    (∃ pre post, es ++ [e] = pre ++ ServerEvent.indexRun p true :: post ∧
        ServerEvent.clearIndex p ∉ post) ↔
      e = ServerEvent.indexRun p true ∨
        ((∃ pre post, es = pre ++ ServerEvent.indexRun p true :: post ∧
            ServerEvent.clearIndex p ∉ post) ∧ e ≠ ServerEvent.clearIndex p) := by
  constructor
  · rintro ⟨pre, post, h, hpost⟩
    rcases snoc_eq_middle_split h with ⟨rfl, rfl, hm⟩ | ⟨post', rfl, hes⟩
    · exact Or.inl hm.symm
    · refine Or.inr ⟨⟨pre, post', hes, fun hc => hpost (List.mem_append.mpr (Or.inl hc))⟩, ?_⟩
      intro he
      exact hpost (List.mem_append.mpr (Or.inr (by simp [he])))
  · rintro (rfl | ⟨⟨pre, post, rfl, hpost⟩, hne⟩)
    · exact ⟨es, [], rfl, by simp⟩
    · refine ⟨pre, post ++ [e], by simp, ?_⟩
      intro hc
      rcases List.mem_append.mp hc with h | h
      · exact hpost h
      · simp only [List.mem_singleton] at h
        exact hne h.symm

/-- C7: a root is in the in-memory indexed set exactly when some
`indexCodebase` run for it completed successfully and no later
clear-index request removed it: successful completion adds it, a thrown run
leaves the set unchanged, and only the clear-index route removes it. -/
theorem indexedCodebases_iff_completed_not_cleared (es : List ServerEvent) (p : String) :
    p ∈ runEvents es ↔
      ∃ pre post, es = pre ++ ServerEvent.indexRun p true :: post ∧
        ServerEvent.clearIndex p ∉ post := by
  induction es using List.reverseRecOn with
  | nil =>
    constructor
    · intro h
      simp [runEvents] at h
    · rintro ⟨pre, post, h, -⟩
      have := congrArg List.length h
      simp only [List.length_nil, List.length_append, List.length_cons] at this
      omega
  | append_singleton es e ih =>
    have hrun : runEvents (es ++ [e]) = applyEvent (runEvents es) e := by
      simp [runEvents, List.foldl_append]
    rw [hrun, marked_snoc, ← ih]
    cases e with
    | indexRun q ok =>
      cases ok with
      | true =>
        have happ : applyEvent (runEvents es) (ServerEvent.indexRun q true)
            = setAdd (runEvents es) q := rfl
        rw [happ, mem_setAdd]
        constructor
        · rintro (rfl | hq)
          · exact Or.inl rfl
          · exact Or.inr ⟨hq, by simp⟩
        · rintro (he | ⟨hq, -⟩)
          · injection he with h1 h2
            exact Or.inl h1.symm
          · exact Or.inr hq
      | false =>
        have happ : applyEvent (runEvents es) (ServerEvent.indexRun q false)
            = runEvents es := rfl
        rw [happ]
        constructor
        · intro hq
          exact Or.inr ⟨hq, by simp⟩
        · rintro (he | ⟨hq, -⟩)
          · simp at he
          · exact hq
    | clearIndex q =>
      have happ : applyEvent (runEvents es) (ServerEvent.clearIndex q)
          = setDelete (runEvents es) q := rfl
      rw [happ, mem_setDelete]
      constructor
      · rintro ⟨hs, hne⟩
        refine Or.inr ⟨hs, ?_⟩
        intro hc
        injection hc with h1
        exact hne h1.symm
      · rintro (he | ⟨hs, hne⟩)
        · simp at he
        · refine ⟨hs, ?_⟩
          intro hpq
          exact hne (by rw [hpq])

lemma mem_insertRanked {x z : QdrantPoint × Rat} {l : List (QdrantPoint × Rat)}
    (h : z ∈ insertRanked x l) : z = x ∨ z ∈ l := by
  induction l with
  | nil => simpa [insertRanked] using h
  | cons y rest ih =>
    rw [insertRanked] at h
    split at h
    · rcases List.mem_cons.mp h with rfl | h'
      · exact Or.inl rfl
      · exact Or.inr h'
    · rcases List.mem_cons.mp h with rfl | h'
      · exact Or.inr (List.mem_cons_self _ _)
      · rcases ih h' with rfl | hz
        · exact Or.inl rfl
        · exact Or.inr (List.mem_cons_of_mem _ hz)

lemma mem_rankByScore {z : QdrantPoint × Rat} {l : List (QdrantPoint × Rat)}
    (h : z ∈ rankByScore l) : z ∈ l := by
  induction l with
  | nil => simp [rankByScore] at h
  | cons y rest ih =>
    rw [rankByScore, List.foldr_cons] at h
    rcases mem_insertRanked h with rfl | h'
    · exact List.mem_cons_self _ _
    · exact List.mem_cons_of_mem _ (ih h')

lemma indexFileLoop_codebasePath (cfg : IndexingConfig) (md5 : List Char → List Char)
    (embed : List Char → List Rat) (fails : Nat → Bool) (relPath cb ts : String) :
    ∀ (chunks : List (List Char)) (i : Nat) (acc : List QdrantPoint),
      (∀ pt ∈ acc, pt.payload.codebasePath = cb) →
      ∀ pt ∈ (indexFileLoop cfg md5 embed fails relPath cb ts chunks i acc).2,
        pt.payload.codebasePath = cb := by
  intro chunks
  induction chunks with
  | nil => intro i acc hacc pt hpt; exact hacc pt hpt
  | cons c rest ih =>
    intro i acc hacc pt hpt
    rw [indexFileLoop] at hpt
    split at hpt
    · exact hacc pt hpt
    · refine ih (i + 1) _ ?_ pt hpt
      intro pt' hpt'
      rcases List.mem_append.mp hpt' with h' | h'
      · exact hacc pt' h'
      · simp only [List.mem_singleton] at h'
        subst h'
        rfl

/-- C3: a search scoped to a (truthy) root `A` returns only results whose
`codebasePath` is `A` — never another root `B`; a null scope builds no
filter; and every point the indexer upserts for root `A` carries
`codebasePath = A` in its payload, so two roots sharing the collection never
cross-contaminate. -/
theorem searchCodebase_scoping (points : List QdrantPoint)
    (score : QdrantPoint → Rat) (limit : Nat) (A B : String)
    (hA : A ≠ ("")) (hAB : B ≠ A) :
    (∀ r ∈ searchCodebase points score (some A) limit,
        r.codebasePath = A ∧ r.codebasePath ≠ B) ∧
    buildSearchFilter none = none ∧
    (∀ (cfg : IndexingConfig) (md5 : List Char → List Char)
        (embed : List Char → List Rat) (fails : Nat → Bool) (ts : String)
        (f : WalkedFile),
      ∀ pt ∈ (indexFile cfg md5 embed fails A ts f).2,
        pt.payload.codebasePath = A) := by
  refine ⟨?_, rfl, ?_⟩
  · intro r hr
    have hfilter : buildSearchFilter (some A) = some A := by
      simp [buildSearchFilter, hA]
    unfold searchCodebase at hr
    rw [hfilter] at hr
    obtain ⟨pr, hpr, hr⟩ := List.mem_map.mp hr
    have hpr' := mem_rankByScore (List.mem_of_mem_take hpr)
    obtain ⟨pt, hpt, hpt'⟩ := List.mem_map.mp hpr'
    have hmem := List.mem_filter.mp hpt
    have hmem' := List.mem_filter.mp hmem.1
    have hcb : pt.payload.codebasePath = A := by
      have := hmem'.2
      simp at this
      exact this
    have hrA : r.codebasePath = A := by
      rw [← hr, ← hpt']
      exact hcb
    exact ⟨hrA, by rw [hrA]; exact fun h => hAB h.symm⟩
  · intro cfg md5 embed fails ts f pt hpt
    unfold indexFile at hpt
    split at hpt
    · simp at hpt
    · split at hpt
      · simp at hpt
      · exact indexFileLoop_codebasePath cfg md5 embed fails _ A ts _ 0 []
          (by intro pt' h'; simp at h') pt hpt

/-- Witness for C3: searching the one-point collection of root `A` scoped to
`A` yields results only from `A`. -/
theorem searchCodebase_scoping_witness :
    (∀ r ∈ searchCodebase [samplePointA] (fun _ => 1) (some ("A")) 10,
        r.codebasePath = ("A") ∧ r.codebasePath ≠ ("B")) ∧
    buildSearchFilter none = none ∧
    (∀ (cfg : IndexingConfig) (md5 : List Char → List Char)
        (embed : List Char → List Rat) (fails : Nat → Bool) (ts : String)
        (f : WalkedFile),
      ∀ pt ∈ (indexFile cfg md5 embed fails ("A") ts f).2,
        pt.payload.codebasePath = ("A")) :=
  searchCodebase_scoping [samplePointA] (fun _ => 1) 10 ("A") ("B")
    (by decide) (by decide)

lemma indexFileLoop_first_fail (cfg : IndexingConfig) (md5 : List Char → List Char)
    (embed : List Char → List Rat) (fails : Nat → Bool) (relPath cb ts : String) :
    ∀ (chunks : List (List Char)) (k i : Nat) (acc : List QdrantPoint),
      (∀ j, j < k → fails (i + j) = false) → fails (i + k) = true →
      k < chunks.length →
      (indexFileLoop cfg md5 embed fails relPath cb ts chunks i acc).1 = 0 ∧
      (indexFileLoop cfg md5 embed fails relPath cb ts chunks i acc).2.length
        = acc.length + k := by
  intro chunks
  induction chunks with
  | nil => intro k i acc _ _ hk; simp at hk
  | cons c rest ih =>
    intro k i acc hpre hk hklt
    cases k with
    | zero =>
      simp only [Nat.add_zero] at hk
      rw [indexFileLoop, if_pos hk]
      simp
    | succ k' =>
      have h0 : fails i = false := by
        have := hpre 0 (by omega)
        simpa using this
      rw [indexFileLoop, if_neg (by simp [h0])]
      have := ih k' (i + 1)
        (acc ++ [mkChunkPoint cfg md5 embed relPath cb ts i c])
        (fun j hj => by
          have := hpre (j + 1) (by omega)
          rw [show i + 1 + j = i + (j + 1) by omega]
          exact this)
        (by rw [show i + 1 + k' = i + (k' + 1) by omega]; exact hk)
        (by simpa using hklt)
      refine ⟨this.1, ?_⟩
      rw [this.2]
      simp [List.length_append]
      omega

lemma processBatch_snd (cfg : IndexingConfig) (md5 : List Char → List Char)
    (embed : List Char → List Rat) (fails : String → Nat → Bool) (cb ts : String) :
    ∀ (batch : List WalkedFile) (acc : Nat × Nat),
      (processBatch cfg md5 embed fails cb ts batch acc).2 = acc.2 + batch.length := by
  intro batch
  induction batch with
  | nil => intro acc; rfl
  | cons f rest ih =>
    intro acc
    have hstep : processBatch cfg md5 embed fails cb ts (f :: rest) acc
        = processBatch cfg md5 embed fails cb ts rest
          (acc.1 + (indexFile cfg md5 embed (fails f.path) cb ts f).1, acc.2 + 1) := rfl
    rw [hstep, ih]
    simp only [List.length_cons]
    omega

/-- Counterexample for C4: with a valid chunking configuration (window 5,
overlap 1) and the 12-character file `abcdefghijkl` (3 chunks), a failure of
chunk 1's embedding/upsert makes `indexFile` return 0 with only chunk 0
upserted — chunk 2 is never embedded, upserted or counted, because the
`try`/`catch` wraps the whole per-file loop, not a single chunk. -/
theorem indexFile_chunk_failure_counterexample :
    (indexFile { INDEXING_CONFIG with maxChunkSize := 5, overlapSize := 1 }
      (fun l => l) (fun _ => []) (fun i => i == 1) (("/r")) (("t"))
      ⟨("/r/a.txt"), 12, some ("abcdefghijkl")⟩).1 = 0 ∧
    (indexFile { INDEXING_CONFIG with maxChunkSize := 5, overlapSize := 1 }
      (fun l => l) (fun _ => []) (fun i => i == 1) (("/r")) (("t"))
      ⟨("/r/a.txt"), 12, some ("abcdefghijkl")⟩).2.length = 1 ∧
    ((splitIntoChunks (("abcdefghijkl").toList) 5 1).getD []).length = 3 := by
  exact ⟨rfl, rfl, rfl⟩

/-- C4 (amended): a chunk's embedding or upsert failure is caught at the
file level, not the chunk level: the first failing chunk aborts the rest of
that file's loop, the file returns a chunk count of 0, and exactly the
chunks before the failure remain upserted; the failure still does not abort
the overall run — every file of every batch is processed regardless. -/
theorem indexFile_chunk_failure_aborts_file (cfg : IndexingConfig)
    (md5 : List Char → List Char) (embed : List Char → List Rat)
    (fails : Nat → Bool) (cb ts : String) (f : WalkedFile) (content : String)
    (k : Nat) (hc : f.content = some content) (hsz : ¬ cfg.maxFileSize < f.size)
    (hpre : ∀ j, j < k → fails j = false) (hk : fails k = true)
    (hklt : k < ((splitIntoChunks content.toList cfg.maxChunkSize
        cfg.overlapSize).getD []).length) :
    (indexFile cfg md5 embed fails cb ts f).1 = 0 ∧
    (indexFile cfg md5 embed fails cb ts f).2.length = k ∧
    (∀ (fails₂ : String → Nat → Bool) (batch : List WalkedFile) (acc : Nat × Nat),
      (processBatch cfg md5 embed fails₂ cb ts batch acc).2
        = acc.2 + batch.length) := by
  have hfile : indexFile cfg md5 embed fails cb ts f
      = indexFileLoop cfg md5 embed fails (pathRelative cb f.path) cb ts
        ((splitIntoChunks content.toList cfg.maxChunkSize cfg.overlapSize).getD [])
        0 [] := by
    unfold indexFile
    rw [if_neg hsz, hc]
  obtain ⟨h1, h2⟩ := indexFileLoop_first_fail cfg md5 embed fails
    (pathRelative cb f.path) cb ts
    ((splitIntoChunks content.toList cfg.maxChunkSize cfg.overlapSize).getD [])
    k 0 [] (fun j hj => by simpa using hpre j hj) (by simpa using hk) hklt
  refine ⟨by rw [hfile]; exact h1, by rw [hfile]; rw [h2]; simp, ?_⟩
  intro fails₂ batch acc
  exact processBatch_snd cfg md5 embed fails₂ cb ts batch acc

/-- Witness for C4 at window 1, overlap 0, file `abc`, failing chunk 1: the
file returns 0 with exactly chunk 0 upserted, while batch processing counts
every file. -/
theorem indexFile_chunk_failure_aborts_file_witness :
    (indexFile { INDEXING_CONFIG with maxChunkSize := 1, overlapSize := 0 }
      (fun l => l) (fun _ => []) (fun i => i == 1) (("/q")) (("t"))
      ⟨("/q/b.js"), 3, some ("abc")⟩).1 = 0 ∧
    (indexFile { INDEXING_CONFIG with maxChunkSize := 1, overlapSize := 0 }
      (fun l => l) (fun _ => []) (fun i => i == 1) (("/q")) (("t"))
      ⟨("/q/b.js"), 3, some ("abc")⟩).2.length = 1 ∧
    (∀ (fails₂ : String → Nat → Bool) (batch : List WalkedFile) (acc : Nat × Nat),
      (processBatch { INDEXING_CONFIG with maxChunkSize := 1, overlapSize := 0 }
        (fun l => l) (fun _ => []) fails₂ (("/q")) (("t")) batch acc).2
        = acc.2 + batch.length) :=
  indexFile_chunk_failure_aborts_file
    { INDEXING_CONFIG with maxChunkSize := 1, overlapSize := 0 }
    (fun l => l) (fun _ => []) (fun i => i == 1) (("/q")) (("t"))
    ⟨("/q/b.js"), 3, some ("abc")⟩ ("abc") 1
    rfl (by decide) (by decide) (by decide) (by decide)

lemma toBatchesAux_length_sum {α : Type} (bs : Nat) (hbs : 0 < bs) :
    ∀ (fuel : Nat) (l : List α), l.length ≤ fuel →
      ((toBatchesAux bs fuel l).map List.length).sum = l.length := by
  intro fuel
  induction fuel with
  | zero =>
    intro l hl
    have : l = [] := List.eq_nil_of_length_eq_zero (by omega)
    simp [this, toBatchesAux]
  | succ fuel ih =>
    intro l hl
    rw [toBatchesAux]
    by_cases hnil : l.isEmpty
    · rw [if_pos hnil]
      have : l = [] := List.isEmpty_iff.mp hnil
      simp [this]
    · rw [if_neg hnil]
      have hne : l ≠ [] := fun h => hnil (by simp [h])
      have hpos : 0 < l.length := List.length_pos.mpr hne
      have hdrop : (l.drop bs).length = l.length - bs := List.length_drop bs l
      rw [List.map_cons, List.sum_cons, ih (l.drop bs) (by omega)]
      have htake : (l.take bs).length = min bs l.length := List.length_take bs l
      omega

lemma batchFold_snd (cfg : IndexingConfig) (md5 : List Char → List Char)
    (embed : List Char → List Rat) (fails : String → Nat → Bool) (cb ts : String) :
    ∀ (batches : List (List WalkedFile)) (acc : Nat × Nat),
      (batches.foldl
        (fun acc batch => processBatch cfg md5 embed fails cb ts batch acc)
        acc).2 = acc.2 + (batches.map List.length).sum := by
  intro batches
  induction batches with
  | nil => intro acc; simp
  | cons batch rest ih =>
    intro acc
    rw [List.foldl_cons, ih, processBatch_snd]
    simp only [List.map_cons, List.sum_cons]
    omega

/-- C10: the `processedFiles` count returned by the indexing run always
equals the number of allow-listed files the walker enumerated under the
root, whatever the per-file sizes, read failures or per-chunk failures are —
over-sized and failed files return a chunk count of 0 but are still counted
as processed, so the success result never reveals skips or failures. -/
theorem indexCodebase_processedFiles_counts_all :
    (∀ (cfg : IndexingConfig) (md5 : List Char → List Char)
        (embed : List Char → List Rat) (fails : String → Nat → Bool)
        (ts cb : String) (fuel : Nat) (fs : FSTree),
      (indexCodebaseRun cfg md5 embed fails ts cb fuel fs).2
        = ((walkFiles fuel cb fs).filter
            (fun f => CODE_EXTENSIONS.contains (extname f.path))).length) ∧
    (∀ (cfg : IndexingConfig) (md5 : List Char → List Char)
        (embed : List Char → List Rat) (fails : Nat → Bool) (cb ts : String)
        (f : WalkedFile), cfg.maxFileSize < f.size →
      indexFile cfg md5 embed fails cb ts f = (0, [])) := by
  constructor
  · intro cfg md5 embed fails ts cb fuel fs
    unfold indexCodebaseRun
    rw [batchFold_snd]
    unfold toBatches
    rw [toBatchesAux_length_sum indexBatchSize (by decide) _ _ (le_refl _)]
    omega
  · intro cfg md5 embed fails cb ts f h
    simp [indexFile, h]

lemma joinWith_head_ne_empty (sep hdr : String) (rest : List String)
    (hh : hdr.length ≠ 0) : joinWith sep (hdr :: rest) ≠ ("") := by
  cases rest with
  | nil =>
    intro h
    rw [show joinWith sep [hdr] = hdr from rfl] at h
    exact hh (by rw [h]; rfl)
  | cons x xs =>
    intro h
    rw [show joinWith sep (hdr :: x :: xs)
        = hdr ++ sep ++ joinWith sep (x :: xs) from rfl] at h
    have := congrArg String.length h
    rw [String.length_append, String.length_append] at this
    have hz : (("") : String).length = 0 := rfl
    rw [hz] at this
    omega

/-- Counterexample for C5: for a truthy path whose directory is absent
(every read of it fails), `getCodebaseContext` returns the directory-
structure header with an empty body — a non-empty string — because the
header is pushed before any read is attempted. -/
theorem getCodebaseContext_unreadable_counterexample :
    getCodebaseContext (some ("x")) 0 none = ("## Directory Structure:\n\n") ∧
    getCodebaseContext (some ("x")) 0 none ≠ ("") := by
  exact ⟨by decide, by decide⟩

/-- C5 (amended): `getCodebaseContext` returns the empty string exactly when
the root argument is falsy; for every truthy root — readable or not — the
result starts with the directory-structure header and is non-empty, and for
an absent or unreadable root it is exactly the header with an empty body.
Key-file and code-file sections appear only when their reads produced
content. -/
theorem getCodebaseContext_header_always (p : String) (fuel : Nat)
    (root : Option FSTree) (hp : ¬ p = ("")) :
    getCodebaseContext (some p) fuel root ≠ ("") ∧
    (rootUnreadable root →
      getCodebaseContext (some p) fuel root = ("## Directory Structure:\n\n")) ∧
    getCodebaseContext none fuel root = ("") := by
  have hlen : ∀ s : String,
      ((("## Directory Structure:\n") ++ s ++ ("\n"))).length ≠ 0 := by
    intro s
    rw [String.length_append, String.length_append]
    have h24 : (("## Directory Structure:\n")).length = 24 := rfl
    have h1 : (("\n")).length = 1 := rfl
    rw [h24, h1]
    omega
  refine ⟨?_, ?_, rfl⟩
  · simp only [getCodebaseContext, if_neg hp]
    split <;> split <;>
      exact joinWith_head_ne_empty _ _ _ (hlen _)
  · intro hun
    rcases root with _ | t
    · simp only [getCodebaseContext, if_neg hp]
      rfl
    · rcases t with ⟨sz, c⟩ | ⟨rb, es⟩
      · cases fuel <;> (simp only [getCodebaseContext, if_neg hp]; rfl)
      · cases rb
        · cases fuel <;> (simp only [getCodebaseContext, if_neg hp]; rfl)
        · exact hun.elim

/-- Witness for C5 at path `x` over an absent root. -/
theorem getCodebaseContext_header_always_witness :
    getCodebaseContext (some ("x")) 0 none ≠ ("") ∧
    (rootUnreadable none →
      getCodebaseContext (some ("x")) 0 none = ("## Directory Structure:\n\n")) ∧
    getCodebaseContext none 0 none = ("") :=
  getCodebaseContext_header_always ("x") 0 none (by decide)

/-- C9: every retrieval failure (query embedding or vector-store search,
modelled as an error outcome) is caught inside `getIndexedCodebaseContext`,
which returns the empty string; the context phase of `sendMessage` then
falls back to the Context Assembler, so the chat path never propagates a
retrieval failure — while the direct search interface rethrows it as a hard
failure. -/
theorem retrieval_error_degrades_to_fallback :
    ∀ (e : String) (useIdx : Bool) (cbp cfg : Option String)
      (indexed : List String) (fuel : Nat) (fs : Option FSTree),
      getIndexedCodebaseContext indexed (.error e) (jsOrPath cbp cfg) = ("") ∧
      sendMessageContext useIdx cbp cfg indexed (.error e) fuel fs
        = getCodebaseContext (jsOrPath cbp cfg) fuel fs ∧
      searchCodebaseOutcome (.error e) = .error e := by
  intro e useIdx cbp cfg indexed fuel fs
  have h1 : ∀ root : Option String,
      getIndexedCodebaseContext indexed (Except.error e) root = ("") := by
    intro root
    rcases root with _ | p
    · rfl
    · simp only [getIndexedCodebaseContext]
      by_cases hp : p = ("")
      · simp [hp]
      · rw [if_neg hp]
        by_cases hc : indexed.contains p <;> simp [hc]
  refine ⟨h1 _, ?_, rfl⟩
  simp only [sendMessageContext]
  by_cases hcond : useIdx && truthy (jsOrPath cbp cfg)
  · rw [if_pos hcond, h1]
    simp
  · rw [if_neg hcond]
    simp
